import Mathlib

/-!
Verification of the BERT codec engine described by include/bert.h: a
tag-driven recursive-descent decoder parameterized by caller-supplied
constructor callbacks (a generalized right fold), paired with a two-pass
writer that first measures the byte length of a term description and then
emits the bytes into a caller-owned buffer.

The repository ships only the interface header.  The reader and writer
structures below are embedded from that header; the decoding and writing
routines themselves are modelled from the specification, over lists of
natural numbers standing for bytes.
-/

namespace BertSpec

/-- A byte sequence; wellformed entries lie below 256. -/
abbrev Bytes := List Nat

/-- Big-endian byte rendering of a value in a field of the given width,
truncating to the field width as a machine write would. -/
def beBytes (v : Nat) : Nat → Bytes
  | 0 => []
  | n + 1 => (v / 256 ^ n) % 256 :: beBytes v n

/-- Value denoted by a big-endian byte sequence. -/
def beVal (bs : Bytes) : Nat := bs.foldl (fun a b => a * 256 + b) 0

/-- Read exactly n bytes from the front of the stream, failing (rather than
reading past the end) when fewer are available. -/
def takeN (n : Nat) (bs : Bytes) : Option (Bytes × Bytes) :=
  if n ≤ bs.length then some (bs.take n, bs.drop n) else none

/-- Interpret a 32-bit value as a signed integer (twos complement), matching
the int32_t argument of the integer constructor in the header. -/
def sint32 (u : Nat) : Int := if u < 2 ^ 31 then (u : Int) else (u : Int) - 2 ^ 32

/-! Tag bytes of the Erlang external term format subset supported by the
codec (the wire format of section 6 of the spec). -/

def SMALL_INTEGER_EXT : Nat := 97

def INTEGER_EXT : Nat := 98

def ATOM_EXT : Nat := 100

def SMALL_TUPLE_EXT : Nat := 104

def LARGE_TUPLE_EXT : Nat := 105

def NIL_EXT : Nat := 106

def STRING_EXT : Nat := 107

def LIST_EXT : Nat := 108

def BINARY_EXT : Nat := 109

def SMALL_ATOM_EXT : Nat := 115

/-! ## Encoder: the two-pass writer of bert.h

A term descriptor (bert_write_seq_t) is a callback that issues a sequence of
primitive emitter calls.  A pure descriptor is fully determined by that
sequence, so it is embedded as a list of primitive calls; each primitive
call pushes a fixed sequence of bytes through the push callback of the
writer. -/

/-- One primitive emitter call of the bert_writer API. -/
inductive WCall where
  | small_tuple (n : Nat)
  | large_tuple (n : Nat)
  | small_atom (bs : Bytes)
  | atom (bs : Bytes)
  | binary (bs : Bytes)
  | uint (v : Nat) (size : Nat)
  | list (n : Nat)
  | nil

/-- Modelled from the spec: the bytes one primitive emitter call pushes,
per the wire format of section 6 (the emitter bodies live in the missing
bert.c; only their signatures are in the header). -/
def wcallBytes : WCall → Bytes
  | .small_tuple n => SMALL_TUPLE_EXT :: beBytes n 1
  | .large_tuple n => LARGE_TUPLE_EXT :: beBytes n 4
  | .small_atom bs => SMALL_ATOM_EXT :: (beBytes bs.length 1 ++ bs)
  | .atom bs => ATOM_EXT :: (beBytes bs.length 2 ++ bs)
  | .binary bs => BINARY_EXT :: (beBytes bs.length 4 ++ bs)
  | .uint v size => beBytes v size
  | .list n => LIST_EXT :: beBytes n 4
  | .nil => [NIL_EXT]

/-- Byte stream a pure descriptor emits through push when invoked. -/
def descBytes (d : List WCall) : Bytes := d.flatMap wcallBytes

/-- State of a bert_writer: the caller-owned buffer and the private size
counter. -/
structure WriterState where
  buf : Bytes
  size : Nat

/-- Push callback of the dry (measuring) pass: a no-op size accumulator
that writes nothing. -/
def dryPush (st : WriterState) (_b : Nat) : WriterState :=
  { st with size := st.size + 1 }

/-- Push callback of the emit pass: appends the byte to the buffer and
counts it. -/
def emitPush (st : WriterState) (b : Nat) : WriterState :=
  { buf := st.buf ++ [b], size := st.size + 1 }

/-- Invoke a descriptor once against a given push callback: every byte the
descriptor describes is fed through push. -/
def runDesc (push : WriterState → Nat → WriterState) (st : WriterState) (d : List WCall) :
    WriterState :=
  (descBytes d).foldl push st

/-- Modelled from the spec: bert_write_sub (bert.c is not in the
repository).  Invokes the descriptor exactly once with push redirected to
the no-op size accumulator, starting the private size counter at zero, and
returns the resulting state together with the measured byte count. -/
def bert_write_sub (st : WriterState) (d : List WCall) : WriterState × Nat :=
  let st2 := runDesc dryPush { buf := st.buf, size := 0 } d
  (st2, st2.size)

/-- Modelled from the spec: bert_write_packet (bert.c is not in the
repository).  Measures the payload with bert_write_sub, emits the
packet_size_size-byte big-endian length followed by the payload via the
real push, and invokes done once with the finished buffer and total size.
The returned list is the sequence of done invocations. -/
def bert_write_packet (w : Nat) (d : List WCall) : Bytes × List (Bytes × Nat) :=
  let sz := (bert_write_sub { buf := [], size := 0 } d).2
  let st1 := (beBytes sz w).foldl emitPush { buf := [], size := 0 }
  let st2 := runDesc emitPush st1 d
  (st2.buf, [(st2.buf, st2.size)])

/-! ## Decoder: the fold engine of bert.h

The bert_reader struct supplies stream access, the constructor set, the
pre-existing nil value, and the non-returning error handler.  The byte
cursor is embedded as the remaining byte list; the primitive constructors
receive the bytes of the sub-region the cursor points at, per the header
comment that the reader points at the binary data of the object. -/

/-- Constructor set of a bert_reader (the caller-supplied callbacks of the
header).  nil is a value, not a function: the single shared empty-list
object.  The error handler is embedded as the none result of decoding. -/
structure BertReader (α : Type u) where
  tuple : Nat → List α → α
  list : α → α → α
  binary : Bytes → α
  atom : Bytes → α
  string : Bytes → α
  integer : Int → α
  nil : α

/-- One constructor invocation performed during a decode, recording the
arguments passed to the callback and the value it returned. -/
inductive Ev (α : Type u) where
  | tuple (size : Nat) (els : List α) (ret : α)
  | list (tup : α) (tail : α) (ret : α)
  | binary (bs : Bytes) (ret : α)
  | atom (bs : Bytes) (ret : α)
  | string (bs : Bytes) (ret : α)
  | integer (val : Int) (ret : α)

/-- Value returned by a constructor invocation. -/
def Ev.ret : Ev α → α
  | .tuple _ _ v => v
  | .list _ _ v => v
  | .binary _ v => v
  | .atom _ v => v
  | .string _ v => v
  | .integer _ v => v

/-- Previously built values passed as arguments to a constructor
invocation. -/
def Ev.args : Ev α → List α
  | .tuple _ els _ => els
  | .list t tl _ => [t, tl]
  | _ => []

mutual

/-- Modelled from the spec: bert_decode (bert.c is not in the repository).
Tag-dispatching recursive-descent decoder, a generalized right fold: it
reads one tag byte, decodes children recursively, and invokes the matching
caller-supplied constructor; the trace of constructor invocations is
returned alongside the result.  A none result models invoking the
non-returning error callback: unrecognized tag, or a length field that
would read past the available bytes.  Fuel bounds the recursion depth and
strictly decreases on every recursive call. -/
def decodeT (r : BertReader α) : Nat → Bytes → List (Ev α) × Option (α × Bytes)
  | 0, _ => ([], none)
  | _ + 1, [] => ([], none)
  | fuel + 1, tag :: bs =>
    if tag = SMALL_INTEGER_EXT then
      match takeN 1 bs with
      | none => ([], none)
      | some (vb, rest) =>
        ([.integer (beVal vb) (r.integer (beVal vb))], some (r.integer (beVal vb), rest))
    else if tag = INTEGER_EXT then
      match takeN 4 bs with
      | none => ([], none)
      | some (vb, rest) =>
        ([.integer (sint32 (beVal vb)) (r.integer (sint32 (beVal vb)))],
         some (r.integer (sint32 (beVal vb)), rest))
    else if tag = ATOM_EXT then
      match takeN 2 bs with
      | none => ([], none)
      | some (lb, rest) =>
        match takeN (beVal lb) rest with
        | none => ([], none)
        | some (ab, rest2) => ([.atom ab (r.atom ab)], some (r.atom ab, rest2))
    else if tag = SMALL_ATOM_EXT then
      match takeN 1 bs with
      | none => ([], none)
      | some (lb, rest) =>
        match takeN (beVal lb) rest with
        | none => ([], none)
        | some (ab, rest2) => ([.atom ab (r.atom ab)], some (r.atom ab, rest2))
    else if tag = STRING_EXT then
      match takeN 2 bs with
      | none => ([], none)
      | some (lb, rest) =>
        match takeN (beVal lb) rest with
        | none => ([], none)
        | some (sb, rest2) => ([.string sb (r.string sb)], some (r.string sb, rest2))
    else if tag = BINARY_EXT then
      match takeN 4 bs with
      | none => ([], none)
      | some (lb, rest) =>
        match takeN (beVal lb) rest with
        | none => ([], none)
        | some (bb, rest2) => ([.binary bb (r.binary bb)], some (r.binary bb, rest2))
    else if tag = NIL_EXT then
      ([], some (r.nil, bs))
    else if tag = SMALL_TUPLE_EXT then
      match takeN 1 bs with
      | none => ([], none)
      | some (nb, rest) =>
        match decodeN r fuel (beVal nb) rest with
        | (tr, none) => (tr, none)
        | (tr, some (els, rest2)) =>
          (tr ++ [.tuple (beVal nb) els (r.tuple (beVal nb) els)],
           some (r.tuple (beVal nb) els, rest2))
    else if tag = LARGE_TUPLE_EXT then
      match takeN 4 bs with
      | none => ([], none)
      | some (nb, rest) =>
        match decodeN r fuel (beVal nb) rest with
        | (tr, none) => (tr, none)
        | (tr, some (els, rest2)) =>
          (tr ++ [.tuple (beVal nb) els (r.tuple (beVal nb) els)],
           some (r.tuple (beVal nb) els, rest2))
    else if tag = LIST_EXT then
      match takeN 4 bs with
      | none => ([], none)
      | some (nb, rest) =>
        match decodeN r fuel (beVal nb) rest with
        | (tr, none) => (tr, none)
        | (tr, some (els, rest2)) =>
          match decodeT r fuel rest2 with
          | (tr2, none) =>
            (tr ++ [.tuple (beVal nb) els (r.tuple (beVal nb) els)] ++ tr2, none)
          | (tr2, some (tl, rest3)) =>
            (tr ++ [.tuple (beVal nb) els (r.tuple (beVal nb) els)] ++ tr2
               ++ [.list (r.tuple (beVal nb) els) tl (r.list (r.tuple (beVal nb) els) tl)],
             some (r.list (r.tuple (beVal nb) els) tl, rest3))
    else ([], none)

/-- Modelled from the spec: decode a fixed number of consecutive terms
(the children of a tuple, or the elements of a list). -/
def decodeN (r : BertReader α) : Nat → Nat → Bytes → List (Ev α) × Option (List α × Bytes)
  | _, 0, bs => ([], some ([], bs))
  | 0, _ + 1, _ => ([], none)
  | fuel + 1, n + 1, bs =>
    match decodeT r fuel bs with
    | (tr, none) => (tr, none)
    | (tr, some (v, rest)) =>
      match decodeN r fuel n rest with
      | (tr2, none) => (tr ++ tr2, none)
      | (tr2, some (vs, rest2)) => (tr ++ tr2, some (v :: vs, rest2))

end

/-- Entry point: decode one term from a byte sequence, with fuel ample for
any term the bytes can describe (every decoding step consumes input). -/
def bert_decode (r : BertReader α) (bs : Bytes) : List (Ev α) × Option (α × Bytes) :=
  decodeT r (2 * bs.length + 1) bs

/-! ## A canonical term representation

The engine owns no term representation (bert_object is only declared); to
state the round-trip property we pick a canonical caller: an inductive
Erlang-term type, its constructor set, and a descriptor generator that
describes a term through the primitive emitters of the writer. -/

/-- Canonical caller-side term representation of the supported tag set. -/
inductive BertTerm where
  | tuple (els : List BertTerm)
  | list (els : List BertTerm) (tail : BertTerm)
  | nil
  | binary (bs : Bytes)
  | atom (bs : Bytes)
  | string (bs : Bytes)
  | integer (v : Int)

/-- The canonical constructor set over BertTerm.  The list constructor
receives the element block as the tuple object the decoder built from the
elements, per the header signature list(reader, tuple, tail). -/
def termReader : BertReader BertTerm where
  tuple := fun _ els => .tuple els
  list := fun tup tail =>
    match tup with
    | .tuple els => .list els tail
    | t => .list [t] tail
  binary := .binary
  atom := .atom
  string := .string
  integer := .integer
  nil := .nil

mutual

/-- Descriptor a caller holding a BertTerm issues to the writer: the
sequence of primitive emitter calls describing the term, per section 4.2
of the spec.  Integers and strings have no dedicated emitter and are
written through uint. -/
def termDesc : BertTerm → List WCall
  | .tuple els =>
    (if els.length < 256 then WCall.small_tuple els.length
     else WCall.large_tuple els.length) :: termDescList els
  | .list els tail => WCall.list els.length :: (termDescList els ++ termDesc tail)
  | .nil => [WCall.nil]
  | .binary bs => [WCall.binary bs]
  | .atom bs => if bs.length < 256 then [WCall.small_atom bs] else [WCall.atom bs]
  | .string bs =>
    WCall.uint STRING_EXT 1 :: WCall.uint bs.length 2 :: bs.map (fun b => WCall.uint b 1)
  | .integer v =>
    if 0 ≤ v ∧ v < 256 then [WCall.uint SMALL_INTEGER_EXT 1, WCall.uint v.toNat 1]
    else [WCall.uint INTEGER_EXT 1, WCall.uint ((v % 2 ^ 32).toNat) 4]

/-- Descriptor calls for a block of consecutive terms. -/
def termDescList : List BertTerm → List WCall
  | [] => []
  | t :: ts => termDesc t ++ termDescList ts

end

/-- Bytes the emit pass pushes for a term: the encoding of the term. -/
def bert_encode (t : BertTerm) : Bytes := descBytes (termDesc t)

/-- Bytes the emit pass pushes for a block of consecutive terms. -/
def encBL (ts : List BertTerm) : Bytes := descBytes (termDescList ts)

mutual

/-- A term is wellformed when every length fits its wire-format field,
every content byte is a byte, and every integer fits int32: exactly the
terms constructible from the supported tag set. -/
def wf : BertTerm → Bool
  | .tuple els => decide (els.length < 2 ^ 32) && wfList els
  | .list els tail => decide (els.length < 2 ^ 32) && wfList els && wf tail
  | .nil => true
  | .binary bs => decide (bs.length < 2 ^ 32) && bs.all (fun b => b < 256)
  | .atom bs => decide (bs.length < 2 ^ 16) && bs.all (fun b => b < 256)
  | .string bs => decide (bs.length < 2 ^ 16) && bs.all (fun b => b < 256)
  | .integer v => decide (-(2 ^ 31) ≤ v) && decide (v < 2 ^ 31)

/-- Wellformedness of a block of terms. -/
def wfList : List BertTerm → Bool
  | [] => true
  | t :: ts => wf t && wfList ts

end

mutual

/-- Fuel cost of decoding a term: an upper bound on the recursion depth
measure consumed by decodeT on the encoding of the term. -/
def nodes : BertTerm → Nat
  | .tuple els => 1 + nodesL els
  | .list els tail => 1 + nodesL els + nodes tail
  | _ => 1

/-- Fuel cost of decoding a block of consecutive terms. -/
def nodesL : List BertTerm → Nat
  | [] => 0
  | t :: ts => 1 + nodes t + nodesL ts

end

/-- The trivial reader whose term representation carries no information;
used to instantiate interface-level theorems on concrete byte inputs. -/
def unitReader : BertReader Unit where
  tuple := fun _ _ => ()
  list := fun _ _ => ()
  binary := fun _ => ()
  atom := fun _ => ()
  string := fun _ => ()
  integer := fun _ => ()
  nil := ()

/-- The 2-tuple of the atom ok and the string ok, the example term of the
spec. -/
def exampleTerm : BertTerm :=
  .tuple [.atom [111, 107], .string [111, 107]]

/-! ## Trace invariants of the decoder -/

/-- Range constraint on a constructor invocation: any value handed to the
integer constructor fits the int32_t parameter of the header. -/
def Ev.intOk : Ev α → Prop
  | .integer v _ => -(2 ^ 31) ≤ v ∧ v < 2 ^ 31
  | _ => True

/-- Values returned by the constructor invocations of a trace. -/
def rets (tr : List (Ev α)) : List α := tr.map Ev.ret

/-- Bottom-up trace discipline: every argument passed to a constructor is
available beforehand, that is, it is either in the initial pool A (which
holds the shared nil value) or was returned by an earlier invocation of
the trace. -/
def bottomUp (A : List α) : List (Ev α) → Prop
  | [] => True
  | e :: tr => (∀ a ∈ e.args, a ∈ A) ∧ bottomUp (A ++ [e.ret]) tr

/-- Invariants of decodeT at a given fuel: integer constructor arguments
fit int32, constructor invocations are bottom-up, and a successful decode
consumes an initial segment of the input (never reading past the end). -/
def DTinv (r : BertReader α) (fuel : Nat) : Prop :=
  ∀ bs tr res, decodeT r fuel bs = (tr, res) → (∀ b ∈ bs, b < 256) →
    (∀ e ∈ tr, e.intOk) ∧
    (∀ A : List α, r.nil ∈ A → bottomUp A tr) ∧
    ∀ v rest, res = some (v, rest) →
      (∃ pre, bs = pre ++ rest) ∧ ∀ A : List α, r.nil ∈ A → v ∈ A ∨ v ∈ rets tr

/-- Invariants of decodeN at a given fuel. -/
def DNinv (r : BertReader α) (fuel : Nat) : Prop :=
  ∀ n bs tr res, decodeN r fuel n bs = (tr, res) → (∀ b ∈ bs, b < 256) →
    (∀ e ∈ tr, e.intOk) ∧
    (∀ A : List α, r.nil ∈ A → bottomUp A tr) ∧
    ∀ vs rest, res = some (vs, rest) →
      (∃ pre, bs = pre ++ rest) ∧ ∀ A : List α, r.nil ∈ A → ∀ v ∈ vs, v ∈ A ∨ v ∈ rets tr

@[simp] theorem beBytes_length (v n : Nat) : (beBytes v n).length = n := by
  induction n with
  | zero => rfl
  | succ n ih => simp [beBytes, ih]

theorem beVal_foldl (n : Nat) : ∀ v a : Nat,
    (beBytes v n).foldl (fun a b => a * 256 + b) a = a * 256 ^ n + v % 256 ^ n := by
  induction n with
  | zero => intro v a; simp [beBytes, Nat.mod_one]
  | succ n ih =>
    intro v a
    have hsplit : v % 256 ^ (n + 1) = v % 256 ^ n + 256 ^ n * (v / 256 ^ n % 256) := by
      rw [pow_succ, Nat.mod_mul]
    simp only [beBytes, List.foldl_cons, ih]
    rw [hsplit, pow_succ]
    ring

theorem beVal_beBytes_mod (v n : Nat) : beVal (beBytes v n) = v % 256 ^ n := by
  simpa [beVal] using beVal_foldl n v 0

theorem beVal_beBytes (v n : Nat) (h : v < 256 ^ n) : beVal (beBytes v n) = v := by
  rw [beVal_beBytes_mod, Nat.mod_eq_of_lt h]

theorem beVal_lt_aux (bs : Bytes) : ∀ a : Nat, (∀ b ∈ bs, b < 256) →
    bs.foldl (fun a b => a * 256 + b) a < (a + 1) * 256 ^ bs.length := by
  induction bs with
  | nil => intro a _; simp
  | cons b bs ih =>
    intro a h
    have hb : b < 256 := h b (List.mem_cons_self b bs)
    have hrest : ∀ x ∈ bs, x < 256 := fun x hx => h x (List.mem_cons_of_mem b hx)
    have step := ih (a * 256 + b) hrest
    have hle : (a * 256 + b + 1) * 256 ^ bs.length ≤ (a + 1) * 256 ^ (b :: bs).length := by
      simp only [List.length_cons, pow_succ]
      have : a * 256 + b + 1 ≤ (a + 1) * 256 := by omega
      calc (a * 256 + b + 1) * 256 ^ bs.length ≤ (a + 1) * 256 * 256 ^ bs.length :=
            Nat.mul_le_mul_right _ this
        _ = (a + 1) * (256 ^ bs.length * 256) := by ring
    exact lt_of_lt_of_le (by simpa using step) hle

theorem beVal_lt (bs : Bytes) (h : ∀ b ∈ bs, b < 256) : beVal bs < 256 ^ bs.length := by
  simpa [beVal] using beVal_lt_aux bs 0 h

theorem takeN_append (l rest : Bytes) : takeN l.length (l ++ rest) = some (l, rest) := by
  simp [takeN]

theorem takeN_beBytes (k v : Nat) (rest : Bytes) :
    takeN k (beBytes v k ++ rest) = some (beBytes v k, rest) := by
  have := takeN_append (beBytes v k) rest
  rwa [beBytes_length] at this

theorem takeN_none (n : Nat) (bs : Bytes) (h : bs.length < n) : takeN n bs = none := by
  simp [takeN]; omega

theorem takeN_eq_append (n : Nat) (bs p q : Bytes) (h : takeN n bs = some (p, q)) :
    bs = p ++ q ∧ p.length = n := by
  by_cases hn : n ≤ bs.length
  · simp [takeN, hn] at h
    obtain ⟨hp, hq⟩ := h
    subst hp; subst hq
    exact ⟨(List.take_append_drop n bs).symm, by simp [List.length_take]; omega⟩
  · simp [takeN, hn] at h

theorem sint32_range (u : Nat) (h : u < 2 ^ 32) :
    -(2 ^ 31) ≤ sint32 u ∧ sint32 u < 2 ^ 31 := by
  unfold sint32
  split <;> omega

theorem sint32_emod (v : Int) (h0 : -(2 ^ 31) ≤ v) (h1 : v < 2 ^ 31) :
    sint32 ((v % 2 ^ 32).toNat) = v := by
  unfold sint32
  split <;> omega

theorem foldl_dryPush (l : Bytes) : ∀ st : WriterState,
    l.foldl dryPush st = { buf := st.buf, size := st.size + l.length } := by
  induction l with
  | nil => intro st; simp
  | cons b l ih => intro st; simp [ih, dryPush]; omega

theorem foldl_emitPush (l : Bytes) : ∀ st : WriterState,
    l.foldl emitPush st = { buf := st.buf ++ l, size := st.size + l.length } := by
  induction l with
  | nil => intro st; simp
  | cons b l ih => intro st; simp [ih, emitPush]; omega

theorem bert_write_sub_eq (st : WriterState) (d : List WCall) :
    bert_write_sub st d = ({ buf := st.buf, size := (descBytes d).length },
      (descBytes d).length) := by
  simp [bert_write_sub, runDesc, foldl_dryPush]

theorem bert_write_packet_eq (w : Nat) (d : List WCall) :
    bert_write_packet w d =
      (beBytes (descBytes d).length w ++ descBytes d,
       [(beBytes (descBytes d).length w ++ descBytes d, w + (descBytes d).length)]) := by
  simp [bert_write_packet, bert_write_sub_eq, runDesc, foldl_emitPush]

/-! ## Step lemmas: one decodeT unfolding per tag -/

theorem decodeT_fuel_zero (r : BertReader α) (bs : Bytes) : decodeT r 0 bs = ([], none) :=
  rfl

theorem decodeT_empty (r : BertReader α) (fuel : Nat) : decodeT r (fuel + 1) [] = ([], none) :=
  rfl

theorem decodeT_smallInt (r : BertReader α) (fuel u : Nat) (rest : Bytes) (hu : u < 256) :
    decodeT r (fuel + 1) (SMALL_INTEGER_EXT :: (beBytes u 1 ++ rest)) =
      ([.integer u (r.integer u)], some (r.integer u, rest)) := by
  have hv : beVal (beBytes u 1) = u := beVal_beBytes u 1 (by simpa using hu)
  simp [decodeT, SMALL_INTEGER_EXT, takeN_beBytes, hv]

theorem decodeT_int (r : BertReader α) (fuel u : Nat) (rest : Bytes) (hu : u < 256 ^ 4) :
    decodeT r (fuel + 1) (INTEGER_EXT :: (beBytes u 4 ++ rest)) =
      ([.integer (sint32 u) (r.integer (sint32 u))], some (r.integer (sint32 u), rest)) := by
  have hv : beVal (beBytes u 4) = u := beVal_beBytes u 4 hu
  simp [decodeT, SMALL_INTEGER_EXT, INTEGER_EXT, takeN_beBytes, hv]

theorem decodeT_atom (r : BertReader α) (fuel : Nat) (ab rest : Bytes)
    (h : ab.length < 256 ^ 2) :
    decodeT r (fuel + 1) (ATOM_EXT :: (beBytes ab.length 2 ++ (ab ++ rest))) =
      ([.atom ab (r.atom ab)], some (r.atom ab, rest)) := by
  have hv : beVal (beBytes ab.length 2) = ab.length := beVal_beBytes _ 2 h
  simp [decodeT, SMALL_INTEGER_EXT, INTEGER_EXT, ATOM_EXT, takeN_beBytes, hv, takeN_append]

theorem decodeT_smallAtom (r : BertReader α) (fuel : Nat) (ab rest : Bytes)
    (h : ab.length < 256) :
    decodeT r (fuel + 1) (SMALL_ATOM_EXT :: (beBytes ab.length 1 ++ (ab ++ rest))) =
      ([.atom ab (r.atom ab)], some (r.atom ab, rest)) := by
  have hv : beVal (beBytes ab.length 1) = ab.length := beVal_beBytes _ 1 (by simpa using h)
  simp [decodeT, SMALL_INTEGER_EXT, INTEGER_EXT, ATOM_EXT, SMALL_ATOM_EXT, takeN_beBytes,
    hv, takeN_append]

theorem decodeT_string (r : BertReader α) (fuel : Nat) (sb rest : Bytes)
    (h : sb.length < 256 ^ 2) :
    decodeT r (fuel + 1) (STRING_EXT :: (beBytes sb.length 2 ++ (sb ++ rest))) =
      ([.string sb (r.string sb)], some (r.string sb, rest)) := by
  have hv : beVal (beBytes sb.length 2) = sb.length := beVal_beBytes _ 2 h
  simp [decodeT, SMALL_INTEGER_EXT, INTEGER_EXT, ATOM_EXT, SMALL_ATOM_EXT, STRING_EXT,
    takeN_beBytes, hv, takeN_append]

theorem decodeT_binary (r : BertReader α) (fuel : Nat) (bb rest : Bytes)
    (h : bb.length < 256 ^ 4) :
    decodeT r (fuel + 1) (BINARY_EXT :: (beBytes bb.length 4 ++ (bb ++ rest))) =
      ([.binary bb (r.binary bb)], some (r.binary bb, rest)) := by
  have hv : beVal (beBytes bb.length 4) = bb.length := beVal_beBytes _ 4 h
  simp [decodeT, SMALL_INTEGER_EXT, INTEGER_EXT, ATOM_EXT, SMALL_ATOM_EXT, STRING_EXT,
    BINARY_EXT, takeN_beBytes, hv, takeN_append]

theorem decodeT_nilTag (r : BertReader α) (fuel : Nat) (rest : Bytes) :
    decodeT r (fuel + 1) (NIL_EXT :: rest) = ([], some (r.nil, rest)) := by
  simp [decodeT, SMALL_INTEGER_EXT, INTEGER_EXT, ATOM_EXT, SMALL_ATOM_EXT, STRING_EXT,
    BINARY_EXT, NIL_EXT]

theorem decodeT_smallTuple (r : BertReader α) (fuel n : Nat) (bs : Bytes) (hn : n < 256) :
    decodeT r (fuel + 1) (SMALL_TUPLE_EXT :: (beBytes n 1 ++ bs)) =
      (match decodeN r fuel n bs with
       | (tr, none) => (tr, none)
       | (tr, some (els, rest2)) =>
         (tr ++ [.tuple n els (r.tuple n els)], some (r.tuple n els, rest2))) := by
  have hv : beVal (beBytes n 1) = n := beVal_beBytes n 1 (by simpa using hn)
  simp [decodeT, SMALL_INTEGER_EXT, INTEGER_EXT, ATOM_EXT, SMALL_ATOM_EXT, STRING_EXT,
    BINARY_EXT, NIL_EXT, SMALL_TUPLE_EXT, takeN_beBytes, hv]

theorem decodeT_largeTuple (r : BertReader α) (fuel n : Nat) (bs : Bytes) (hn : n < 256 ^ 4) :
    decodeT r (fuel + 1) (LARGE_TUPLE_EXT :: (beBytes n 4 ++ bs)) =
      (match decodeN r fuel n bs with
       | (tr, none) => (tr, none)
       | (tr, some (els, rest2)) =>
         (tr ++ [.tuple n els (r.tuple n els)], some (r.tuple n els, rest2))) := by
  have hv : beVal (beBytes n 4) = n := beVal_beBytes n 4 hn
  simp [decodeT, SMALL_INTEGER_EXT, INTEGER_EXT, ATOM_EXT, SMALL_ATOM_EXT, STRING_EXT,
    BINARY_EXT, NIL_EXT, SMALL_TUPLE_EXT, LARGE_TUPLE_EXT, takeN_beBytes, hv]

theorem decodeT_listTag (r : BertReader α) (fuel n : Nat) (bs : Bytes) (hn : n < 256 ^ 4) :
    decodeT r (fuel + 1) (LIST_EXT :: (beBytes n 4 ++ bs)) =
      (match decodeN r fuel n bs with
       | (tr, none) => (tr, none)
       | (tr, some (els, rest2)) =>
         match decodeT r fuel rest2 with
         | (tr2, none) =>
           (tr ++ [.tuple n els (r.tuple n els)] ++ tr2, none)
         | (tr2, some (tl, rest3)) =>
           (tr ++ [.tuple n els (r.tuple n els)] ++ tr2
              ++ [.list (r.tuple n els) tl (r.list (r.tuple n els) tl)],
            some (r.list (r.tuple n els) tl, rest3))) := by
  have hv : beVal (beBytes n 4) = n := beVal_beBytes n 4 hn
  simp [decodeT, SMALL_INTEGER_EXT, INTEGER_EXT, ATOM_EXT, SMALL_ATOM_EXT, STRING_EXT,
    BINARY_EXT, NIL_EXT, SMALL_TUPLE_EXT, LARGE_TUPLE_EXT, LIST_EXT, takeN_beBytes, hv]

theorem decodeT_badTag (r : BertReader α) (fuel : Nat) (tag : Nat) (bs : Bytes)
    (h : tag ∉ ([97, 98, 100, 104, 105, 106, 107, 108, 109, 115] : List Nat)) :
    decodeT r (fuel + 1) (tag :: bs) = ([], none) := by
  simp only [List.mem_cons, List.not_mem_nil, or_false, not_or] at h
  obtain ⟨h1, h2, h3, h4, h5, h6, h7, h8, h9, h10⟩ := h
  simp [decodeT, SMALL_INTEGER_EXT, INTEGER_EXT, ATOM_EXT, SMALL_ATOM_EXT, STRING_EXT,
    BINARY_EXT, NIL_EXT, SMALL_TUPLE_EXT, LARGE_TUPLE_EXT, LIST_EXT,
    h1, h2, h3, h4, h5, h6, h7, h8, h9, h10]

theorem decodeN_zero (r : BertReader α) (fuel : Nat) (bs : Bytes) :
    decodeN r fuel 0 bs = ([], some ([], bs)) := by
  cases fuel <;> rfl

theorem decodeN_fuel_zero (r : BertReader α) (n : Nat) (bs : Bytes) :
    decodeN r 0 (n + 1) bs = ([], none) :=
  rfl

theorem decodeN_succ (r : BertReader α) (fuel n : Nat) (bs : Bytes) :
    decodeN r (fuel + 1) (n + 1) bs =
      (match decodeT r fuel bs with
       | (tr, none) => (tr, none)
       | (tr, some (v, rest)) =>
         match decodeN r fuel n rest with
         | (tr2, none) => (tr ++ tr2, none)
         | (tr2, some (vs, rest2)) => (tr ++ tr2, some (v :: vs, rest2))) :=
  rfl

/-! ## Shape of the encoding, per term constructor -/

theorem beBytes_one (v : Nat) : beBytes v 1 = [v % 256] := by
  simp [beBytes]

@[simp] theorem descBytes_nil : descBytes ([] : List WCall) = [] := rfl

@[simp] theorem descBytes_cons (c : WCall) (d : List WCall) :
    descBytes (c :: d) = wcallBytes c ++ descBytes d := by
  simp [descBytes]

@[simp] theorem descBytes_append (d1 d2 : List WCall) :
    descBytes (d1 ++ d2) = descBytes d1 ++ descBytes d2 := by
  simp [descBytes]

@[simp] theorem encBL_nil : encBL [] = [] := rfl

theorem encBL_cons (t : BertTerm) (ts : List BertTerm) :
    encBL (t :: ts) = bert_encode t ++ encBL ts := by
  simp [encBL, bert_encode, termDescList]

theorem encB_nilTerm : bert_encode .nil = [NIL_EXT] := rfl

theorem encB_binary (bs : Bytes) :
    bert_encode (.binary bs) = BINARY_EXT :: (beBytes bs.length 4 ++ bs) := by
  simp [bert_encode, termDesc, wcallBytes]

theorem encB_atom_small (bs : Bytes) (h : bs.length < 256) :
    bert_encode (.atom bs) = SMALL_ATOM_EXT :: (beBytes bs.length 1 ++ bs) := by
  simp [bert_encode, termDesc, wcallBytes, h]

theorem encB_atom_large (bs : Bytes) (h : ¬ bs.length < 256) :
    bert_encode (.atom bs) = ATOM_EXT :: (beBytes bs.length 2 ++ bs) := by
  simp [bert_encode, termDesc, wcallBytes, h]

theorem descBytes_map_uint (bs : Bytes) (h : ∀ b ∈ bs, b < 256) :
    descBytes (bs.map (fun b => WCall.uint b 1)) = bs := by
  induction bs with
  | nil => rfl
  | cons b bs ih =>
    have hb : b < 256 := h b (List.mem_cons_self b bs)
    have hrest : ∀ x ∈ bs, x < 256 := fun x hx => h x (List.mem_cons_of_mem b hx)
    simp [ih hrest, wcallBytes, beBytes_one, Nat.mod_eq_of_lt hb]

theorem encB_string (bs : Bytes) (h : ∀ b ∈ bs, b < 256) :
    bert_encode (.string bs) = STRING_EXT :: (beBytes bs.length 2 ++ bs) := by
  simp [bert_encode, termDesc, wcallBytes, descBytes_map_uint bs h, beBytes_one, STRING_EXT]

theorem encB_int_small (v : Int) (h0 : 0 ≤ v) (h1 : v < 256) :
    bert_encode (.integer v) = SMALL_INTEGER_EXT :: beBytes v.toNat 1 := by
  have : (0 ≤ v ∧ v < 256) := ⟨h0, h1⟩
  simp [bert_encode, termDesc, wcallBytes, this, beBytes_one, SMALL_INTEGER_EXT]

theorem encB_int_large (v : Int) (h : ¬ (0 ≤ v ∧ v < 256)) :
    bert_encode (.integer v) = INTEGER_EXT :: beBytes ((v % 2 ^ 32).toNat) 4 := by
  simp only [bert_encode, termDesc, if_neg h]
  simp [wcallBytes, beBytes_one, INTEGER_EXT]

theorem encB_tuple_small (els : List BertTerm) (h : els.length < 256) :
    bert_encode (.tuple els) = SMALL_TUPLE_EXT :: (beBytes els.length 1 ++ encBL els) := by
  simp [bert_encode, termDesc, wcallBytes, h, encBL]

theorem encB_tuple_large (els : List BertTerm) (h : ¬ els.length < 256) :
    bert_encode (.tuple els) = LARGE_TUPLE_EXT :: (beBytes els.length 4 ++ encBL els) := by
  simp [bert_encode, termDesc, wcallBytes, h, encBL]

theorem encB_list (els : List BertTerm) (tail : BertTerm) :
    bert_encode (.list els tail) =
      LIST_EXT :: (beBytes els.length 4 ++ (encBL els ++ bert_encode tail)) := by
  simp [bert_encode, termDesc, wcallBytes, encBL]

/-! ## Round trip: decoding the encoding of a wellformed term rebuilds it -/

theorem nodes_pos (t : BertTerm) : 1 ≤ nodes t := by
  cases t <;> (simp [nodes]; try omega)

/-- Decoding a block of encoded terms, given the round-trip property of
each term at most as large as N. -/
theorem rt_listAux (N : Nat)
    (IH : ∀ T, nodes T ≤ N → wf T = true →
      nodes T + 1 ≤ 2 * (bert_encode T).length ∧
      ∀ fuel, nodes T ≤ fuel → ∀ rest, ∃ tr,
        decodeT termReader fuel (bert_encode T ++ rest) = (tr, some (T, rest))) :
    ∀ ts : List BertTerm, nodesL ts ≤ N → wfList ts = true →
      nodesL ts ≤ 2 * (encBL ts).length ∧
      ∀ fuel, nodesL ts ≤ fuel → ∀ rest, ∃ tr,
        decodeN termReader fuel ts.length (encBL ts ++ rest) = (tr, some (ts, rest)) := by
  intro ts
  induction ts with
  | nil =>
    intro _ _
    refine ⟨by simp [nodesL], ?_⟩
    intro fuel _ rest
    exact ⟨[], by simp [decodeN_zero]⟩
  | cons t ts ih =>
    intro hN hwf
    simp only [wfList, Bool.and_eq_true] at hwf
    have hnodes : nodesL (t :: ts) = 1 + nodes t + nodesL ts := rfl
    have htN : nodes t ≤ N := by rw [hnodes] at hN; omega
    have htsN : nodesL ts ≤ N := by rw [hnodes] at hN; omega
    obtain ⟨hlen1, hdec1⟩ := IH t htN hwf.1
    obtain ⟨hlen2, hdec2⟩ := ih htsN hwf.2
    constructor
    · rw [hnodes, encBL_cons, List.length_append]
      omega
    · intro fuel hfuel rest
      rw [hnodes] at hfuel
      obtain ⟨f, rfl⟩ : ∃ f, fuel = f + 1 := ⟨fuel - 1, by omega⟩
      obtain ⟨tr1, h1⟩ := hdec1 f (by omega) (encBL ts ++ rest)
      obtain ⟨tr2, h2⟩ := hdec2 f (by omega) rest
      refine ⟨tr1 ++ tr2, ?_⟩
      rw [encBL_cons, List.append_assoc, List.length_cons, decodeN_succ]
      simp [h1, h2]

/-- Main round-trip driver: strong induction on the size of the term. -/
theorem rt_driver : ∀ N T, nodes T ≤ N → wf T = true →
    nodes T + 1 ≤ 2 * (bert_encode T).length ∧
    ∀ fuel, nodes T ≤ fuel → ∀ rest, ∃ tr,
      decodeT termReader fuel (bert_encode T ++ rest) = (tr, some (T, rest)) := by
  intro N
  induction N with
  | zero => intro T hT; have := nodes_pos T; omega
  | succ N ihN =>
    intro T hTN hwf
    have hpos := nodes_pos T
    cases T with
    | nil =>
      refine ⟨by simp [encB_nilTerm, nodes], ?_⟩
      intro fuel hfuel rest
      obtain ⟨f, rfl⟩ : ∃ f, fuel = f + 1 := ⟨fuel - 1, by omega⟩
      refine ⟨[], ?_⟩
      rw [encB_nilTerm, List.singleton_append, decodeT_nilTag]
      rfl
    | integer v =>
      simp only [wf, Bool.and_eq_true, decide_eq_true_eq] at hwf
      by_cases hsm : 0 ≤ v ∧ v < 256
      · have hu : v.toNat < 256 := by omega
        refine ⟨by simp [encB_int_small v hsm.1 hsm.2, nodes], ?_⟩
        intro fuel hfuel rest
        obtain ⟨f, rfl⟩ : ∃ f, fuel = f + 1 := ⟨fuel - 1, by omega⟩
        refine ⟨[.integer v (.integer v)], ?_⟩
        rw [encB_int_small v hsm.1 hsm.2, List.cons_append, decodeT_smallInt _ _ _ _ hu]
        have hcast : ((v.toNat : Int)) = v := Int.toNat_of_nonneg hsm.1
        simp [termReader, hcast]
      · have hu : (v % 2 ^ 32).toNat < 256 ^ 4 := by
          have h : (256 : Nat) ^ 4 = 2 ^ 32 := by norm_num
          omega
        refine ⟨by simp [encB_int_large v hsm, nodes], ?_⟩
        intro fuel hfuel rest
        obtain ⟨f, rfl⟩ : ∃ f, fuel = f + 1 := ⟨fuel - 1, by omega⟩
        refine ⟨[.integer v (.integer v)], ?_⟩
        have hs : sint32 ((v % 2 ^ 32).toNat) = v := sint32_emod v hwf.1 hwf.2
        rw [encB_int_large v hsm, List.cons_append, decodeT_int _ _ _ _ hu, hs]
        simp [termReader]
    | binary bs =>
      simp only [wf, Bool.and_eq_true, decide_eq_true_eq] at hwf
      have hlt : bs.length < 256 ^ 4 := by
        have h : (256 : Nat) ^ 4 = 2 ^ 32 := by norm_num
        have := hwf.1; omega
      refine ⟨by simp [encB_binary, nodes], ?_⟩
      intro fuel hfuel rest
      obtain ⟨f, rfl⟩ : ∃ f, fuel = f + 1 := ⟨fuel - 1, by omega⟩
      refine ⟨[.binary bs (.binary bs)], ?_⟩
      rw [encB_binary, List.cons_append, List.append_assoc, decodeT_binary _ _ _ _ hlt]
      simp [termReader]
    | atom bs =>
      simp only [wf, Bool.and_eq_true, decide_eq_true_eq] at hwf
      by_cases hsm : bs.length < 256
      · refine ⟨by simp [encB_atom_small bs hsm, nodes], ?_⟩
        intro fuel hfuel rest
        obtain ⟨f, rfl⟩ : ∃ f, fuel = f + 1 := ⟨fuel - 1, by omega⟩
        refine ⟨[.atom bs (.atom bs)], ?_⟩
        rw [encB_atom_small bs hsm, List.cons_append, List.append_assoc,
          decodeT_smallAtom _ _ _ _ hsm]
        simp [termReader]
      · have hlt : bs.length < 256 ^ 2 := by
          have h : (256 : Nat) ^ 2 = 2 ^ 16 := by norm_num
          have := hwf.1; omega
        refine ⟨by simp [encB_atom_large bs hsm, nodes], ?_⟩
        intro fuel hfuel rest
        obtain ⟨f, rfl⟩ : ∃ f, fuel = f + 1 := ⟨fuel - 1, by omega⟩
        refine ⟨[.atom bs (.atom bs)], ?_⟩
        rw [encB_atom_large bs hsm, List.cons_append, List.append_assoc,
          decodeT_atom _ _ _ _ hlt]
        simp [termReader]
    | string bs =>
      simp only [wf, Bool.and_eq_true, decide_eq_true_eq, List.all_eq_true] at hwf
      have hbytes : ∀ b ∈ bs, b < 256 := fun b hb => by
        have := hwf.2 b hb; simpa using this
      have hlt : bs.length < 256 ^ 2 := by
        have h : (256 : Nat) ^ 2 = 2 ^ 16 := by norm_num
        have := hwf.1; omega
      refine ⟨by simp [encB_string bs hbytes, nodes], ?_⟩
      intro fuel hfuel rest
      obtain ⟨f, rfl⟩ : ∃ f, fuel = f + 1 := ⟨fuel - 1, by omega⟩
      refine ⟨[.string bs (.string bs)], ?_⟩
      rw [encB_string bs hbytes, List.cons_append, List.append_assoc,
        decodeT_string _ _ _ _ hlt]
      simp [termReader]
    | tuple els =>
      simp only [wf, Bool.and_eq_true, decide_eq_true_eq] at hwf
      have hnodes : nodes (.tuple els) = 1 + nodesL els := rfl
      have hlsN : nodesL els ≤ N := by rw [hnodes] at hTN; omega
      obtain ⟨hlenL, hdecL⟩ := rt_listAux N ihN els hlsN hwf.2
      by_cases hsm : els.length < 256
      · refine ⟨?_, ?_⟩
        · rw [encB_tuple_small els hsm, hnodes]
          simp only [List.length_cons, List.length_append, beBytes_length]
          omega
        · intro fuel hfuel rest
          rw [hnodes] at hfuel
          obtain ⟨f, rfl⟩ : ∃ f, fuel = f + 1 := ⟨fuel - 1, by omega⟩
          obtain ⟨tr, htr⟩ := hdecL f (by omega) rest
          refine ⟨tr ++ [.tuple els.length els (.tuple els)], ?_⟩
          rw [encB_tuple_small els hsm, List.cons_append, List.append_assoc,
            decodeT_smallTuple _ _ _ _ hsm, htr]
          simp [termReader]
      · have hlt : els.length < 256 ^ 4 := by
          have h : (256 : Nat) ^ 4 = 2 ^ 32 := by norm_num
          have := hwf.1; omega
        refine ⟨?_, ?_⟩
        · rw [encB_tuple_large els hsm, hnodes]
          simp only [List.length_cons, List.length_append, beBytes_length]
          omega
        · intro fuel hfuel rest
          rw [hnodes] at hfuel
          obtain ⟨f, rfl⟩ : ∃ f, fuel = f + 1 := ⟨fuel - 1, by omega⟩
          obtain ⟨tr, htr⟩ := hdecL f (by omega) rest
          refine ⟨tr ++ [.tuple els.length els (.tuple els)], ?_⟩
          rw [encB_tuple_large els hsm, List.cons_append, List.append_assoc,
            decodeT_largeTuple _ _ _ _ hlt, htr]
          simp [termReader]
    | list els tail =>
      simp only [wf, Bool.and_eq_true, decide_eq_true_eq] at hwf
      have hnodes : nodes (.list els tail) = 1 + nodesL els + nodes tail := rfl
      have hlsN : nodesL els ≤ N := by rw [hnodes] at hTN; have := nodes_pos tail; omega
      have htlN : nodes tail ≤ N := by rw [hnodes] at hTN; omega
      obtain ⟨hlenL, hdecL⟩ := rt_listAux N ihN els hlsN hwf.1.2
      obtain ⟨hlenT, hdecT⟩ := ihN tail htlN hwf.2
      have hlt : els.length < 256 ^ 4 := by
        have h : (256 : Nat) ^ 4 = 2 ^ 32 := by norm_num
        have := hwf.1.1; omega
      refine ⟨?_, ?_⟩
      · rw [encB_list, hnodes]
        simp only [List.length_cons, List.length_append, beBytes_length]
        omega
      · intro fuel hfuel rest
        rw [hnodes] at hfuel
        obtain ⟨f, rfl⟩ : ∃ f, fuel = f + 1 := ⟨fuel - 1, by omega⟩
        obtain ⟨tr1, h1⟩ := hdecL f (by omega) (bert_encode tail ++ rest)
        obtain ⟨tr2, h2⟩ := hdecT f (by omega) rest
        refine ⟨tr1 ++ [.tuple els.length els (.tuple els)] ++ tr2
          ++ [.list (.tuple els) tail (.list els tail)], ?_⟩
        rw [encB_list, List.cons_append, List.append_assoc, List.append_assoc,
          decodeT_listTag _ _ _ _ hlt, h1]
        simp only [h2]
        simp [termReader]

@[simp] theorem rets_nil : rets ([] : List (Ev α)) = [] := rfl

@[simp] theorem rets_cons (e : Ev α) (tr : List (Ev α)) : rets (e :: tr) = e.ret :: rets tr :=
  rfl

@[simp] theorem rets_append (t1 t2 : List (Ev α)) : rets (t1 ++ t2) = rets t1 ++ rets t2 := by
  simp [rets]

theorem bottomUp_mono : ∀ (tr : List (Ev α)) (A B : List α), (∀ a ∈ A, a ∈ B) →
    bottomUp A tr → bottomUp B tr := by
  intro tr
  induction tr with
  | nil => intro A B _ _; trivial
  | cons e tr ih =>
    intro A B hAB h
    refine ⟨fun a ha => hAB a (h.1 a ha), ?_⟩
    refine ih (A ++ [e.ret]) (B ++ [e.ret]) ?_ h.2
    intro a ha
    rcases List.mem_append.mp ha with h1 | h2
    · exact List.mem_append.mpr (Or.inl (hAB a h1))
    · exact List.mem_append.mpr (Or.inr h2)

theorem bottomUp_append : ∀ (t1 : List (Ev α)) (A : List α) (t2 : List (Ev α)),
    bottomUp A t1 → bottomUp (A ++ rets t1) t2 → bottomUp A (t1 ++ t2) := by
  intro t1
  induction t1 with
  | nil => intro A t2 _ h2; simpa using h2
  | cons e t1 ih =>
    intro A t2 h1 h2
    refine ⟨h1.1, ?_⟩
    refine ih (A ++ [e.ret]) t2 h1.2 ?_
    rw [List.append_assoc]
    simpa using h2

theorem bottomUp_single (A : List α) (e : Ev α) (h : ∀ a ∈ e.args, a ∈ A) :
    bottomUp A [e] :=
  ⟨h, trivial⟩

/-- Byte-boundedness survives splitting the stream. -/
theorem takeN_bytes (n : Nat) (bs p q : Bytes) (h : takeN n bs = some (p, q))
    (hb : ∀ b ∈ bs, b < 256) : (∀ b ∈ p, b < 256) ∧ (∀ b ∈ q, b < 256) := by
  obtain ⟨heq, _⟩ := takeN_eq_append n bs p q h
  subst heq
  constructor
  · intro b hbp; exact hb b (List.mem_append.mpr (Or.inl hbp))
  · intro b hbq; exact hb b (List.mem_append.mpr (Or.inr hbq))

/-! Raw unfolding lemmas: decodeT on a cons input with a known tag, the
reads left as matches. -/

theorem decodeT_run_smallInt (r : BertReader α) (fuel : Nat) (bs1 : Bytes) :
    decodeT r (fuel + 1) (SMALL_INTEGER_EXT :: bs1) =
      (match takeN 1 bs1 with
       | none => ([], none)
       | some (vb, rest) =>
         ([.integer (beVal vb) (r.integer (beVal vb))],
          some (r.integer (beVal vb), rest))) := by
  simp [decodeT, SMALL_INTEGER_EXT]

theorem decodeT_run_int (r : BertReader α) (fuel : Nat) (bs1 : Bytes) :
    decodeT r (fuel + 1) (INTEGER_EXT :: bs1) =
      (match takeN 4 bs1 with
       | none => ([], none)
       | some (vb, rest) =>
         ([.integer (sint32 (beVal vb)) (r.integer (sint32 (beVal vb)))],
          some (r.integer (sint32 (beVal vb)), rest))) := by
  simp [decodeT, SMALL_INTEGER_EXT, INTEGER_EXT]

theorem decodeT_run_atom (r : BertReader α) (fuel : Nat) (bs1 : Bytes) :
    decodeT r (fuel + 1) (ATOM_EXT :: bs1) =
      (match takeN 2 bs1 with
       | none => ([], none)
       | some (lb, rest) =>
         match takeN (beVal lb) rest with
         | none => ([], none)
         | some (ab, rest2) => ([.atom ab (r.atom ab)], some (r.atom ab, rest2))) := by
  simp [decodeT, SMALL_INTEGER_EXT, INTEGER_EXT, ATOM_EXT]

theorem decodeT_run_smallAtom (r : BertReader α) (fuel : Nat) (bs1 : Bytes) :
    decodeT r (fuel + 1) (SMALL_ATOM_EXT :: bs1) =
      (match takeN 1 bs1 with
       | none => ([], none)
       | some (lb, rest) =>
         match takeN (beVal lb) rest with
         | none => ([], none)
         | some (ab, rest2) => ([.atom ab (r.atom ab)], some (r.atom ab, rest2))) := by
  simp [decodeT, SMALL_INTEGER_EXT, INTEGER_EXT, ATOM_EXT, SMALL_ATOM_EXT]

theorem decodeT_run_string (r : BertReader α) (fuel : Nat) (bs1 : Bytes) :
    decodeT r (fuel + 1) (STRING_EXT :: bs1) =
      (match takeN 2 bs1 with
       | none => ([], none)
       | some (lb, rest) =>
         match takeN (beVal lb) rest with
         | none => ([], none)
         | some (sb, rest2) => ([.string sb (r.string sb)], some (r.string sb, rest2))) := by
  simp [decodeT, SMALL_INTEGER_EXT, INTEGER_EXT, ATOM_EXT, SMALL_ATOM_EXT, STRING_EXT]

theorem decodeT_run_binary (r : BertReader α) (fuel : Nat) (bs1 : Bytes) :
    decodeT r (fuel + 1) (BINARY_EXT :: bs1) =
      (match takeN 4 bs1 with
       | none => ([], none)
       | some (lb, rest) =>
         match takeN (beVal lb) rest with
         | none => ([], none)
         | some (bb, rest2) => ([.binary bb (r.binary bb)], some (r.binary bb, rest2))) := by
  simp [decodeT, SMALL_INTEGER_EXT, INTEGER_EXT, ATOM_EXT, SMALL_ATOM_EXT, STRING_EXT,
    BINARY_EXT]

theorem decodeT_run_smallTuple (r : BertReader α) (fuel : Nat) (bs1 : Bytes) :
    decodeT r (fuel + 1) (SMALL_TUPLE_EXT :: bs1) =
      (match takeN 1 bs1 with
       | none => ([], none)
       | some (nb, rest) =>
         match decodeN r fuel (beVal nb) rest with
         | (tr, none) => (tr, none)
         | (tr, some (els, rest2)) =>
           (tr ++ [.tuple (beVal nb) els (r.tuple (beVal nb) els)],
            some (r.tuple (beVal nb) els, rest2))) := by
  simp [decodeT, SMALL_INTEGER_EXT, INTEGER_EXT, ATOM_EXT, SMALL_ATOM_EXT, STRING_EXT,
    BINARY_EXT, NIL_EXT, SMALL_TUPLE_EXT]

theorem decodeT_run_largeTuple (r : BertReader α) (fuel : Nat) (bs1 : Bytes) :
    decodeT r (fuel + 1) (LARGE_TUPLE_EXT :: bs1) =
      (match takeN 4 bs1 with
       | none => ([], none)
       | some (nb, rest) =>
         match decodeN r fuel (beVal nb) rest with
         | (tr, none) => (tr, none)
         | (tr, some (els, rest2)) =>
           (tr ++ [.tuple (beVal nb) els (r.tuple (beVal nb) els)],
            some (r.tuple (beVal nb) els, rest2))) := by
  simp [decodeT, SMALL_INTEGER_EXT, INTEGER_EXT, ATOM_EXT, SMALL_ATOM_EXT, STRING_EXT,
    BINARY_EXT, NIL_EXT, SMALL_TUPLE_EXT, LARGE_TUPLE_EXT]

theorem decodeT_run_list (r : BertReader α) (fuel : Nat) (bs1 : Bytes) :
    decodeT r (fuel + 1) (LIST_EXT :: bs1) =
      (match takeN 4 bs1 with
       | none => ([], none)
       | some (nb, rest) =>
         match decodeN r fuel (beVal nb) rest with
         | (tr, none) => (tr, none)
         | (tr, some (els, rest2)) =>
           match decodeT r fuel rest2 with
           | (tr2, none) =>
             (tr ++ [.tuple (beVal nb) els (r.tuple (beVal nb) els)] ++ tr2, none)
           | (tr2, some (tl, rest3)) =>
             (tr ++ [.tuple (beVal nb) els (r.tuple (beVal nb) els)] ++ tr2
                ++ [.list (r.tuple (beVal nb) els) tl (r.list (r.tuple (beVal nb) els) tl)],
              some (r.list (r.tuple (beVal nb) els) tl, rest3))) := by
  simp [decodeT, SMALL_INTEGER_EXT, INTEGER_EXT, ATOM_EXT, SMALL_ATOM_EXT, STRING_EXT,
    BINARY_EXT, NIL_EXT, SMALL_TUPLE_EXT, LARGE_TUPLE_EXT, LIST_EXT]

theorem decode_inv (r : BertReader α) : ∀ fuel, DTinv r fuel ∧ DNinv r fuel := by
  intro fuel
  induction fuel with
  | zero =>
    constructor
    · intro bs tr res h hb
      rw [decodeT_fuel_zero] at h
      injection h with h1 h2
      subst h1; subst h2
      exact ⟨by simp, fun A _ => trivial, fun v rest hres => by simp at hres⟩
    · intro n bs tr res h hb
      cases n with
      | zero =>
        rw [decodeN_zero] at h
        injection h with h1 h2
        subst h1; subst h2
        refine ⟨by simp, fun A _ => trivial, ?_⟩
        intro vs rest hres
        simp only [Option.some.injEq, Prod.mk.injEq] at hres
        obtain ⟨h3, h4⟩ := hres
        subst h3; subst h4
        exact ⟨⟨[], rfl⟩, fun A _ v hv => absurd hv (List.not_mem_nil v)⟩
      | succ n =>
        rw [decodeN_fuel_zero] at h
        injection h with h1 h2
        subst h1; subst h2
        exact ⟨by simp, fun A _ => trivial, fun vs rest hres => by simp at hres⟩
  | succ fuel ih =>
    obtain ⟨ihT, ihN⟩ := ih
    have partN : DNinv r (fuel + 1) := by
      intro n bs tr res h hb
      cases n with
      | zero =>
        rw [decodeN_zero] at h
        injection h with h1 h2
        subst h1; subst h2
        refine ⟨by simp, fun A _ => trivial, ?_⟩
        intro vs rest hres
        simp only [Option.some.injEq, Prod.mk.injEq] at hres
        obtain ⟨h3, h4⟩ := hres
        subst h3; subst h4
        exact ⟨⟨[], rfl⟩, fun A _ v hv => absurd hv (List.not_mem_nil v)⟩
      | succ n =>
        rw [decodeN_succ] at h
        rcases hT : decodeT r fuel bs with ⟨tr1, res1⟩
        rw [hT] at h
        obtain ⟨hInt1, hBU1, hRes1⟩ := ihT bs tr1 res1 hT hb
        cases res1 with
        | none =>
          simp only at h
          injection h with h1 h2
          subst h1; subst h2
          exact ⟨hInt1, hBU1, fun vs rest hres => by simp at hres⟩
        | some p =>
          rcases p with ⟨v, rest⟩
          obtain ⟨⟨pre1, hpre1⟩, hAv1⟩ := hRes1 v rest rfl
          have hbrest : ∀ b ∈ rest, b < 256 := by
            intro b hbm
            exact hb b (hpre1 ▸ List.mem_append.mpr (Or.inr hbm))
          simp only at h
          rcases hN2 : decodeN r fuel n rest with ⟨tr2, res2⟩
          rw [hN2] at h
          obtain ⟨hInt2, hBU2, hRes2⟩ := ihN n rest tr2 res2 hN2 hbrest
          have hIntBoth : ∀ e ∈ tr1 ++ tr2, Ev.intOk e := by
            intro e he
            rcases List.mem_append.mp he with h1 | h2
            · exact hInt1 e h1
            · exact hInt2 e h2
          have hBUboth : ∀ A : List α, r.nil ∈ A → bottomUp A (tr1 ++ tr2) := by
            intro A hA
            refine bottomUp_append tr1 A tr2 (hBU1 A hA) ?_
            exact hBU2 (A ++ rets tr1) (List.mem_append.mpr (Or.inl hA))
          cases res2 with
          | none =>
            simp only at h
            injection h with h1 h2
            subst h1; subst h2
            exact ⟨hIntBoth, hBUboth, fun vs rest2 hres => by simp at hres⟩
          | some q =>
            rcases q with ⟨vs, rest2⟩
            obtain ⟨⟨pre2, hpre2⟩, hAv2⟩ := hRes2 vs rest2 rfl
            simp only at h
            injection h with h1 h2
            subst h1; subst h2
            refine ⟨hIntBoth, hBUboth, ?_⟩
            intro vs0 rest0 hres
            simp only [Option.some.injEq, Prod.mk.injEq] at hres
            obtain ⟨h3, h4⟩ := hres
            subst h3; subst h4
            refine ⟨⟨pre1 ++ pre2, by rw [hpre1, hpre2, List.append_assoc]⟩, ?_⟩
            intro A hA v0 hv0
            rcases List.mem_cons.mp hv0 with h5 | h5
            · subst h5
              rcases hAv1 A hA with h6 | h6
              · exact Or.inl h6
              · exact Or.inr (by simp [h6])
            · rcases hAv2 A hA v0 h5 with h6 | h6
              · exact Or.inl h6
              · exact Or.inr (by simp [h6])
    refine ⟨?_, partN⟩
    intro bs tr res h hb
    cases bs with
    | nil =>
      rw [decodeT_empty] at h
      injection h with h1 h2
      subst h1; subst h2
      exact ⟨by simp, fun A _ => trivial, fun v rest hres => by simp at hres⟩
    | cons tag bs1 =>
      have hb1 : ∀ b ∈ bs1, b < 256 := fun b hbm => hb b (List.mem_cons_of_mem tag hbm)
      by_cases hT97 : tag = SMALL_INTEGER_EXT
      · subst hT97
        rw [decodeT_run_smallInt] at h
        split at h
        · injection h with h1 h2
          subst h1; subst h2
          exact ⟨by simp, fun A _ => trivial, fun v rest hres => by simp at hres⟩
        · rename_i vb rest htk
          obtain ⟨hsplit, hlen⟩ := takeN_eq_append 1 bs1 vb rest htk
          obtain ⟨hvb, _⟩ := takeN_bytes 1 bs1 vb rest htk hb1
          have hval : beVal vb < 256 := by
            have := beVal_lt vb hvb
            rw [hlen] at this
            simpa using this
          injection h with h1 h2
          subst h1; subst h2
          refine ⟨?_, ?_, ?_⟩
          · intro e he
            simp only [List.mem_singleton] at he
            subst he
            simp only [Ev.intOk]
            omega
          · intro A hA
            exact bottomUp_single A _ (by simp [Ev.args])
          · intro v rest0 hres
            simp only [Option.some.injEq, Prod.mk.injEq] at hres
            obtain ⟨h3, h4⟩ := hres
            subst h3; subst h4
            exact ⟨⟨SMALL_INTEGER_EXT :: vb, by simp [hsplit]⟩,
              fun A hA => Or.inr (by simp [rets, Ev.ret])⟩
      · by_cases hT98 : tag = INTEGER_EXT
        · subst hT98
          rw [decodeT_run_int] at h
          split at h
          · injection h with h1 h2
            subst h1; subst h2
            exact ⟨by simp, fun A _ => trivial, fun v rest hres => by simp at hres⟩
          · rename_i vb rest htk
            obtain ⟨hsplit, hlen⟩ := takeN_eq_append 4 bs1 vb rest htk
            obtain ⟨hvb, _⟩ := takeN_bytes 4 bs1 vb rest htk hb1
            have hval : beVal vb < 2 ^ 32 := by
              have := beVal_lt vb hvb
              rw [hlen] at this
              have hp : (256 : Nat) ^ 4 = 2 ^ 32 := by norm_num
              omega
            injection h with h1 h2
            subst h1; subst h2
            refine ⟨?_, ?_, ?_⟩
            · intro e he
              simp only [List.mem_singleton] at he
              subst he
              simp only [Ev.intOk]
              exact sint32_range (beVal vb) hval
            · intro A hA
              exact bottomUp_single A _ (by simp [Ev.args])
            · intro v rest0 hres
              simp only [Option.some.injEq, Prod.mk.injEq] at hres
              obtain ⟨h3, h4⟩ := hres
              subst h3; subst h4
              exact ⟨⟨INTEGER_EXT :: vb, by simp [hsplit]⟩,
                fun A hA => Or.inr (by simp [rets, Ev.ret])⟩
        · by_cases hT100 : tag = ATOM_EXT
          · subst hT100
            rw [decodeT_run_atom] at h
            split at h
            · injection h with h1 h2
              subst h1; subst h2
              exact ⟨by simp, fun A _ => trivial, fun v rest hres => by simp at hres⟩
            · rename_i lb rest htk
              split at h
              · injection h with h1 h2
                subst h1; subst h2
                exact ⟨by simp, fun A _ => trivial, fun v rest hres => by simp at hres⟩
              · rename_i ab rest2 htk2
                obtain ⟨hsplit1, _⟩ := takeN_eq_append 2 bs1 lb rest htk
                obtain ⟨hsplit2, _⟩ := takeN_eq_append (beVal lb) rest ab rest2 htk2
                injection h with h1 h2
                subst h1; subst h2
                refine ⟨?_, ?_, ?_⟩
                · intro e he
                  simp only [List.mem_singleton] at he
                  subst he
                  simp [Ev.intOk]
                · intro A hA
                  exact bottomUp_single A _ (by simp [Ev.args])
                · intro v rest0 hres
                  simp only [Option.some.injEq, Prod.mk.injEq] at hres
                  obtain ⟨h3, h4⟩ := hres
                  subst h3; subst h4
                  exact ⟨⟨ATOM_EXT :: (lb ++ ab), by simp [hsplit1, hsplit2]⟩,
                    fun A hA => Or.inr (by simp [rets, Ev.ret])⟩
          · by_cases hT115 : tag = SMALL_ATOM_EXT
            · subst hT115
              rw [decodeT_run_smallAtom] at h
              split at h
              · injection h with h1 h2
                subst h1; subst h2
                exact ⟨by simp, fun A _ => trivial, fun v rest hres => by simp at hres⟩
              · rename_i lb rest htk
                split at h
                · injection h with h1 h2
                  subst h1; subst h2
                  exact ⟨by simp, fun A _ => trivial, fun v rest hres => by simp at hres⟩
                · rename_i ab rest2 htk2
                  obtain ⟨hsplit1, _⟩ := takeN_eq_append 1 bs1 lb rest htk
                  obtain ⟨hsplit2, _⟩ := takeN_eq_append (beVal lb) rest ab rest2 htk2
                  injection h with h1 h2
                  subst h1; subst h2
                  refine ⟨?_, ?_, ?_⟩
                  · intro e he
                    simp only [List.mem_singleton] at he
                    subst he
                    simp [Ev.intOk]
                  · intro A hA
                    exact bottomUp_single A _ (by simp [Ev.args])
                  · intro v rest0 hres
                    simp only [Option.some.injEq, Prod.mk.injEq] at hres
                    obtain ⟨h3, h4⟩ := hres
                    subst h3; subst h4
                    exact ⟨⟨SMALL_ATOM_EXT :: (lb ++ ab), by simp [hsplit1, hsplit2]⟩,
                      fun A hA => Or.inr (by simp [rets, Ev.ret])⟩
            · by_cases hT107 : tag = STRING_EXT
              · subst hT107
                rw [decodeT_run_string] at h
                split at h
                · injection h with h1 h2
                  subst h1; subst h2
                  exact ⟨by simp, fun A _ => trivial, fun v rest hres => by simp at hres⟩
                · rename_i lb rest htk
                  split at h
                  · injection h with h1 h2
                    subst h1; subst h2
                    exact ⟨by simp, fun A _ => trivial, fun v rest hres => by simp at hres⟩
                  · rename_i sb rest2 htk2
                    obtain ⟨hsplit1, _⟩ := takeN_eq_append 2 bs1 lb rest htk
                    obtain ⟨hsplit2, _⟩ := takeN_eq_append (beVal lb) rest sb rest2 htk2
                    injection h with h1 h2
                    subst h1; subst h2
                    refine ⟨?_, ?_, ?_⟩
                    · intro e he
                      simp only [List.mem_singleton] at he
                      subst he
                      simp [Ev.intOk]
                    · intro A hA
                      exact bottomUp_single A _ (by simp [Ev.args])
                    · intro v rest0 hres
                      simp only [Option.some.injEq, Prod.mk.injEq] at hres
                      obtain ⟨h3, h4⟩ := hres
                      subst h3; subst h4
                      exact ⟨⟨STRING_EXT :: (lb ++ sb), by simp [hsplit1, hsplit2]⟩,
                        fun A hA => Or.inr (by simp [rets, Ev.ret])⟩
              · by_cases hT109 : tag = BINARY_EXT
                · subst hT109
                  rw [decodeT_run_binary] at h
                  split at h
                  · injection h with h1 h2
                    subst h1; subst h2
                    exact ⟨by simp, fun A _ => trivial, fun v rest hres => by simp at hres⟩
                  · rename_i lb rest htk
                    split at h
                    · injection h with h1 h2
                      subst h1; subst h2
                      exact ⟨by simp, fun A _ => trivial, fun v rest hres => by simp at hres⟩
                    · rename_i bb rest2 htk2
                      obtain ⟨hsplit1, _⟩ := takeN_eq_append 4 bs1 lb rest htk
                      obtain ⟨hsplit2, _⟩ := takeN_eq_append (beVal lb) rest bb rest2 htk2
                      injection h with h1 h2
                      subst h1; subst h2
                      refine ⟨?_, ?_, ?_⟩
                      · intro e he
                        simp only [List.mem_singleton] at he
                        subst he
                        simp [Ev.intOk]
                      · intro A hA
                        exact bottomUp_single A _ (by simp [Ev.args])
                      · intro v rest0 hres
                        simp only [Option.some.injEq, Prod.mk.injEq] at hres
                        obtain ⟨h3, h4⟩ := hres
                        subst h3; subst h4
                        exact ⟨⟨BINARY_EXT :: (lb ++ bb), by simp [hsplit1, hsplit2]⟩,
                          fun A hA => Or.inr (by simp [rets, Ev.ret])⟩
                · by_cases hT106 : tag = NIL_EXT
                  · subst hT106
                    rw [decodeT_nilTag] at h
                    injection h with h1 h2
                    subst h1; subst h2
                    refine ⟨by simp, fun A _ => trivial, ?_⟩
                    intro v rest0 hres
                    simp only [Option.some.injEq, Prod.mk.injEq] at hres
                    obtain ⟨h3, h4⟩ := hres
                    subst h3; subst h4
                    exact ⟨⟨[NIL_EXT], rfl⟩, fun A hA => Or.inl hA⟩
                  · by_cases hT104 : tag = SMALL_TUPLE_EXT
                    · subst hT104
                      rw [decodeT_run_smallTuple] at h
                      split at h
                      · injection h with h1 h2
                        subst h1; subst h2
                        exact ⟨by simp, fun A _ => trivial, fun v rest hres => by simp at hres⟩
                      · rename_i nb rest htk
                        obtain ⟨hsplit1, _⟩ := takeN_eq_append 1 bs1 nb rest htk
                        have hbrest : ∀ b ∈ rest, b < 256 :=
                          (takeN_bytes 1 bs1 nb rest htk hb1).2
                        split at h
                        · rename_i trN heqN
                          obtain ⟨hInt1, hBU1, _⟩ :=
                            ihN (beVal nb) rest trN none heqN hbrest
                          injection h with h1 h2
                          subst h1; subst h2
                          exact ⟨hInt1, hBU1, fun v rest0 hres => by simp at hres⟩
                        · rename_i trN els rest2 heqN
                          obtain ⟨hInt1, hBU1, hRes1⟩ :=
                            ihN (beVal nb) rest trN (some (els, rest2)) heqN hbrest
                          obtain ⟨⟨preN, hpreN⟩, hAv1⟩ := hRes1 els rest2 rfl
                          injection h with h1 h2
                          subst h1; subst h2
                          refine ⟨?_, ?_, ?_⟩
                          · intro e he
                            rcases List.mem_append.mp he with h5 | h5
                            · exact hInt1 e h5
                            · simp only [List.mem_singleton] at h5
                              subst h5
                              simp [Ev.intOk]
                          · intro A hA
                            refine bottomUp_append trN A _ (hBU1 A hA) ?_
                            refine bottomUp_single _ _ ?_
                            intro a ha
                            simp only [Ev.args] at ha
                            rcases hAv1 A hA a ha with h6 | h6
                            · exact List.mem_append.mpr (Or.inl h6)
                            · exact List.mem_append.mpr (Or.inr h6)
                          · intro v rest0 hres
                            simp only [Option.some.injEq, Prod.mk.injEq] at hres
                            obtain ⟨h3, h4⟩ := hres
                            subst h3; subst h4
                            refine ⟨⟨SMALL_TUPLE_EXT :: (nb ++ preN), ?_⟩, ?_⟩
                            · rw [hsplit1, hpreN]
                              simp
                            · intro A hA
                              exact Or.inr (by simp [rets, Ev.ret])
                    · by_cases hT105 : tag = LARGE_TUPLE_EXT
                      · subst hT105
                        rw [decodeT_run_largeTuple] at h
                        split at h
                        · injection h with h1 h2
                          subst h1; subst h2
                          exact ⟨by simp, fun A _ => trivial,
                            fun v rest hres => by simp at hres⟩
                        · rename_i nb rest htk
                          obtain ⟨hsplit1, _⟩ := takeN_eq_append 4 bs1 nb rest htk
                          have hbrest : ∀ b ∈ rest, b < 256 :=
                            (takeN_bytes 4 bs1 nb rest htk hb1).2
                          split at h
                          · rename_i trN heqN
                            obtain ⟨hInt1, hBU1, _⟩ :=
                              ihN (beVal nb) rest trN none heqN hbrest
                            injection h with h1 h2
                            subst h1; subst h2
                            exact ⟨hInt1, hBU1, fun v rest0 hres => by simp at hres⟩
                          · rename_i trN els rest2 heqN
                            obtain ⟨hInt1, hBU1, hRes1⟩ :=
                              ihN (beVal nb) rest trN (some (els, rest2)) heqN hbrest
                            obtain ⟨⟨preN, hpreN⟩, hAv1⟩ := hRes1 els rest2 rfl
                            injection h with h1 h2
                            subst h1; subst h2
                            refine ⟨?_, ?_, ?_⟩
                            · intro e he
                              rcases List.mem_append.mp he with h5 | h5
                              · exact hInt1 e h5
                              · simp only [List.mem_singleton] at h5
                                subst h5
                                simp [Ev.intOk]
                            · intro A hA
                              refine bottomUp_append trN A _ (hBU1 A hA) ?_
                              refine bottomUp_single _ _ ?_
                              intro a ha
                              simp only [Ev.args] at ha
                              rcases hAv1 A hA a ha with h6 | h6
                              · exact List.mem_append.mpr (Or.inl h6)
                              · exact List.mem_append.mpr (Or.inr h6)
                            · intro v rest0 hres
                              simp only [Option.some.injEq, Prod.mk.injEq] at hres
                              obtain ⟨h3, h4⟩ := hres
                              subst h3; subst h4
                              refine ⟨⟨LARGE_TUPLE_EXT :: (nb ++ preN), ?_⟩, ?_⟩
                              · rw [hsplit1, hpreN]
                                simp
                              · intro A hA
                                exact Or.inr (by simp [rets, Ev.ret])
                      · by_cases hT108 : tag = LIST_EXT
                        · subst hT108
                          rw [decodeT_run_list] at h
                          split at h
                          · injection h with h1 h2
                            subst h1; subst h2
                            exact ⟨by simp, fun A _ => trivial,
                              fun v rest hres => by simp at hres⟩
                          · rename_i nb rest htk
                            obtain ⟨hsplit1, _⟩ := takeN_eq_append 4 bs1 nb rest htk
                            have hbrest : ∀ b ∈ rest, b < 256 :=
                              (takeN_bytes 4 bs1 nb rest htk hb1).2
                            split at h
                            · rename_i trN heqN
                              obtain ⟨hInt1, hBU1, _⟩ :=
                                ihN (beVal nb) rest trN none heqN hbrest
                              injection h with h1 h2
                              subst h1; subst h2
                              exact ⟨hInt1, hBU1, fun v rest0 hres => by simp at hres⟩
                            · rename_i trN els rest2 heqN
                              obtain ⟨hInt1, hBU1, hRes1⟩ :=
                                ihN (beVal nb) rest trN (some (els, rest2)) heqN hbrest
                              obtain ⟨⟨preN, hpreN⟩, hAv1⟩ := hRes1 els rest2 rfl
                              have hbrest2 : ∀ b ∈ rest2, b < 256 := by
                                intro b hbm
                                exact hbrest b (hpreN ▸ List.mem_append.mpr (Or.inr hbm))
                              have hBUtup : ∀ A : List α, r.nil ∈ A →
                                  bottomUp A (trN
                                    ++ [Ev.tuple (beVal nb) els
                                          (r.tuple (beVal nb) els)]) := by
                                intro A hA
                                refine bottomUp_append trN A _ (hBU1 A hA) ?_
                                refine bottomUp_single _ _ ?_
                                intro a ha
                                simp only [Ev.args] at ha
                                rcases hAv1 A hA a ha with h6 | h6
                                · exact List.mem_append.mpr (Or.inl h6)
                                · exact List.mem_append.mpr (Or.inr h6)
                              split at h
                              · rename_i trT heqT
                                obtain ⟨hInt2, hBU2, _⟩ :=
                                  ihT rest2 trT none heqT hbrest2
                                injection h with h1 h2
                                subst h1; subst h2
                                refine ⟨?_, ?_, fun v rest0 hres => by simp at hres⟩
                                · intro e he
                                  rcases List.mem_append.mp he with h5 | h5
                                  · rcases List.mem_append.mp h5 with h7 | h7
                                    · exact hInt1 e h7
                                    · simp only [List.mem_singleton] at h7
                                      subst h7
                                      simp [Ev.intOk]
                                  · exact hInt2 e h5
                                · intro A hA
                                  refine bottomUp_append _ A trT (hBUtup A hA) ?_
                                  exact hBU2 _ (List.mem_append.mpr (Or.inl hA))
                              · rename_i trT tl rest3 heqT
                                obtain ⟨hInt2, hBU2, hRes2⟩ :=
                                  ihT rest2 trT (some (tl, rest3)) heqT hbrest2
                                obtain ⟨⟨preT, hpreT⟩, hAv2⟩ := hRes2 tl rest3 rfl
                                injection h with h1 h2
                                subst h1; subst h2
                                refine ⟨?_, ?_, ?_⟩
                                · intro e he
                                  rcases List.mem_append.mp he with h5 | h5
                                  · rcases List.mem_append.mp h5 with h7 | h7
                                    · rcases List.mem_append.mp h7 with h8 | h8
                                      · exact hInt1 e h8
                                      · simp only [List.mem_singleton] at h8
                                        subst h8
                                        simp [Ev.intOk]
                                    · exact hInt2 e h7
                                  · simp only [List.mem_singleton] at h5
                                    subst h5
                                    simp [Ev.intOk]
                                · intro A hA
                                  refine bottomUp_append _ A _ ?_ ?_
                                  · refine bottomUp_append _ A trT (hBUtup A hA) ?_
                                    exact hBU2 _ (List.mem_append.mpr (Or.inl hA))
                                  · refine bottomUp_single _ _ ?_
                                    intro a ha
                                    simp only [Ev.args, List.mem_cons,
                                      List.not_mem_nil, or_false] at ha
                                    rcases ha with h6 | h6
                                    · subst h6
                                      simp [rets, Ev.ret]
                                    · subst h6
                                      rcases hAv2 (A ++ rets (trN
                                          ++ [Ev.tuple (beVal nb) els
                                                (r.tuple (beVal nb) els)]))
                                          (List.mem_append.mpr (Or.inl hA)) with h7 | h7
                                      · simp only [rets_append, rets_cons, rets_nil,
                                          List.mem_append, List.mem_singleton, List.mem_cons,
                                          List.not_mem_nil, or_false] at h7 ⊢
                                        tauto
                                      · simp only [rets_append, rets_cons, rets_nil,
                                          List.mem_append, List.mem_singleton, List.mem_cons,
                                          List.not_mem_nil, or_false] at h7 ⊢
                                        tauto
                                · intro v rest0 hres
                                  simp only [Option.some.injEq, Prod.mk.injEq] at hres
                                  obtain ⟨h3, h4⟩ := hres
                                  subst h3; subst h4
                                  refine ⟨⟨LIST_EXT :: (nb ++ (preN ++ preT)), ?_⟩, ?_⟩
                                  · rw [hsplit1, hpreN, hpreT]
                                    simp
                                  · intro A hA
                                    exact Or.inr (by simp [rets, Ev.ret])
                        · have hnot : tag ∉ ([97, 98, 100, 104, 105, 106, 107, 108, 109,
                              115] : List Nat) := by
                            simp only [List.mem_cons, List.not_mem_nil, or_false, not_or]
                            exact ⟨hT97, hT98, hT100, hT104, hT105, hT106, hT107, hT108,
                              hT109, hT115⟩
                          rw [decodeT_badTag r fuel tag bs1 hnot] at h
                          injection h with h1 h2
                          subst h1; subst h2
                          exact ⟨by simp, fun A _ => trivial, fun v rest hres => by simp at hres⟩

/-! ## Claim theorems -/

theorem take_len_append (l1 l2 : Bytes) (n : Nat) (h : l1.length = n) :
    (l1 ++ l2).take n = l1 := by
  subst h
  exact List.take_left l1 l2

theorem drop_len_append (l1 l2 : Bytes) (n : Nat) (h : l1.length = n) :
    (l1 ++ l2).drop n = l2 := by
  subst h
  exact List.drop_left l1 l2

/-- C1: for every term constructible from the supported tag set, decoding
the bytes produced by encoding it yields an equal term: the decoder run on
the encoder output rebuilds the term exactly, consuming all bytes. -/
theorem claim_C1_round_trip (T : BertTerm) (h : wf T = true) :
    (bert_decode termReader (bert_encode T)).2 = some (T, []) := by
  obtain ⟨hlen, hrt⟩ := rt_driver (nodes T) T le_rfl h
  obtain ⟨tr, htr⟩ := hrt (2 * (bert_encode T).length + 1) (by omega) []
  rw [List.append_nil] at htr
  unfold bert_decode
  rw [htr]

/-- C1 witness: the tuple of an atom and a string from the spec examples
round-trips. -/
theorem claim_C1_witness :
    wf exampleTerm = true ∧
      (bert_decode termReader (bert_encode exampleTerm)).2 = some (exampleTerm, []) :=
  ⟨by decide, claim_C1_round_trip exampleTerm (by decide)⟩

/-- C2: the byte count returned by the dry pass of bert_write_sub equals
the number of push calls made by the emit pass of the same pure
descriptor, from any starting size count. -/
theorem claim_C2_two_pass (st st0 : WriterState) (d : List WCall) :
    (runDesc emitPush st0 d).size = st0.size + (bert_write_sub st d).2 := by
  rw [bert_write_sub_eq]
  simp [runDesc, foldl_emitPush]

set_option maxRecDepth 8192 in
/-- C3 counterexample: with size-field width 1 and a 300-byte payload the
big-endian value of the emitted length field is 300 mod 256 = 44, not the
payload length, refuting the claim for every width. -/
theorem claim_C3_cex :
    ¬ (beVal ((bert_write_packet 1 [WCall.uint 0 300]).1.take 1) =
        (descBytes [WCall.uint 0 300]).length) := by
  decide

/-- C3 (amended): provided the payload length L fits the size field,
that is L < 256 ^ W, bert_write_packet emits a W-byte length field whose
big-endian value is L, followed by exactly the L payload bytes, and calls
done exactly once with the finished buffer and total size W + L. -/
theorem claim_C3_packet (w : Nat) (d : List WCall)
    (h : (descBytes d).length < 256 ^ w) :
    (bert_write_packet w d).1.take w = beBytes (descBytes d).length w ∧
    beVal ((bert_write_packet w d).1.take w) = (descBytes d).length ∧
    (bert_write_packet w d).1.drop w = descBytes d ∧
    (bert_write_packet w d).1.length = w + (descBytes d).length ∧
    (bert_write_packet w d).2 =
      [((bert_write_packet w d).1, w + (descBytes d).length)] := by
  have htake : (bert_write_packet w d).1.take w = beBytes (descBytes d).length w := by
    rw [bert_write_packet_eq]
    exact take_len_append _ _ w (beBytes_length _ _)
  refine ⟨htake, ?_, ?_, ?_, ?_⟩
  · rw [htake]
    exact beVal_beBytes _ w h
  · rw [bert_write_packet_eq]
    exact drop_len_append _ _ w (beBytes_length _ _)
  · rw [bert_write_packet_eq]
    simp
  · rw [bert_write_packet_eq]

/-- C3 witness: width 4 over a 10-byte payload, the example of the spec:
length field value 10, done gets total size 14. -/
theorem claim_C3_witness :
    (descBytes [WCall.binary [1, 2, 3, 4, 5]]).length < 256 ^ 4 ∧
    beVal ((bert_write_packet 4 [WCall.binary [1, 2, 3, 4, 5]]).1.take 4) =
      (descBytes [WCall.binary [1, 2, 3, 4, 5]]).length ∧
    (bert_write_packet 4 [WCall.binary [1, 2, 3, 4, 5]]).2 =
      [((bert_write_packet 4 [WCall.binary [1, 2, 3, 4, 5]]).1, 4 + 10)] :=
  ⟨by decide, (claim_C3_packet 4 [WCall.binary [1, 2, 3, 4, 5]] (by decide)).2.1,
    (claim_C3_packet 4 [WCall.binary [1, 2, 3, 4, 5]] (by decide)).2.2.2.2⟩

/-- C4: whenever the declared length of a length-carrying item (binary,
atom, small atom, string) exceeds the remaining bytes, the decoder signals
the error callback with no constructor invoked for the malformed item; an
unrecognized tag does the same; and a successful decode only ever
consumes an initial segment of the available bytes, never reading past
their end. -/
theorem claim_C4_bounds (α : Type) (r : BertReader α) (fuel : Nat) :
    (∀ len rest, len < 2 ^ 32 → rest.length < len →
        decodeT r fuel (BINARY_EXT :: (beBytes len 4 ++ rest)) = ([], none)) ∧
    (∀ len rest, len < 2 ^ 16 → rest.length < len →
        decodeT r fuel (ATOM_EXT :: (beBytes len 2 ++ rest)) = ([], none)) ∧
    (∀ len rest, len < 2 ^ 8 → rest.length < len →
        decodeT r fuel (SMALL_ATOM_EXT :: (beBytes len 1 ++ rest)) = ([], none)) ∧
    (∀ len rest, len < 2 ^ 16 → rest.length < len →
        decodeT r fuel (STRING_EXT :: (beBytes len 2 ++ rest)) = ([], none)) ∧
    (∀ tag bs, tag ∉ ([97, 98, 100, 104, 105, 106, 107, 108, 109, 115] : List Nat) →
        decodeT r fuel (tag :: bs) = ([], none)) ∧
    (∀ bs tr v rest, (∀ b ∈ bs, b < 256) →
        decodeT r fuel bs = (tr, some (v, rest)) → ∃ pre, bs = pre ++ rest) := by
  refine ⟨?_, ?_, ?_, ?_, ?_, ?_⟩
  · intro len rest hlen hshort
    cases fuel with
    | zero => exact decodeT_fuel_zero r _
    | succ f =>
      have h1 : beVal (beBytes len 4) = len := by
        refine beVal_beBytes len 4 ?_
        have hp : (256 : Nat) ^ 4 = 2 ^ 32 := by norm_num
        omega
      have h2 : takeN len rest = none := takeN_none len rest hshort
      rw [decodeT_run_binary, takeN_beBytes]
      simp [h1, h2]
  · intro len rest hlen hshort
    cases fuel with
    | zero => exact decodeT_fuel_zero r _
    | succ f =>
      have h1 : beVal (beBytes len 2) = len := by
        refine beVal_beBytes len 2 ?_
        have hp : (256 : Nat) ^ 2 = 2 ^ 16 := by norm_num
        omega
      have h2 : takeN len rest = none := takeN_none len rest hshort
      rw [decodeT_run_atom, takeN_beBytes]
      simp [h1, h2]
  · intro len rest hlen hshort
    cases fuel with
    | zero => exact decodeT_fuel_zero r _
    | succ f =>
      have h1 : beVal (beBytes len 1) = len := by
        refine beVal_beBytes len 1 ?_
        have hp : (256 : Nat) ^ 1 = 2 ^ 8 := by norm_num
        omega
      have h2 : takeN len rest = none := takeN_none len rest hshort
      rw [decodeT_run_smallAtom, takeN_beBytes]
      simp [h1, h2]
  · intro len rest hlen hshort
    cases fuel with
    | zero => exact decodeT_fuel_zero r _
    | succ f =>
      have h1 : beVal (beBytes len 2) = len := by
        refine beVal_beBytes len 2 ?_
        have hp : (256 : Nat) ^ 2 = 2 ^ 16 := by norm_num
        omega
      have h2 : takeN len rest = none := takeN_none len rest hshort
      rw [decodeT_run_string, takeN_beBytes]
      simp [h1, h2]
  · intro tag bs htag
    cases fuel with
    | zero => exact decodeT_fuel_zero r _
    | succ f => exact decodeT_badTag r f tag bs htag
  · intro bs tr v rest hb hdec
    exact (((decode_inv r fuel).1 bs tr (some (v, rest)) hdec hb).2.2 v rest rfl).1

/-- C4 witness: a binary tag declaring 100 bytes with only 10 remaining
errors out with an empty constructor trace, and so does an atom tag
declaring 50 bytes with only 3 remaining. -/
theorem claim_C4_witness :
    decodeT unitReader 11 (BINARY_EXT :: (beBytes 100 4 ++ List.replicate 10 0)) =
      ([], none) ∧
    decodeT unitReader 11 (ATOM_EXT :: (beBytes 50 2 ++ List.replicate 3 0)) =
      ([], none) :=
  ⟨(claim_C4_bounds Unit unitReader 11).1 100 (List.replicate 10 0) (by decide) (by decide),
    (claim_C4_bounds Unit unitReader 11).2.1 50 (List.replicate 3 0) (by decide) (by decide)⟩

/-- C5: bert_write_sub leaves the buffer of the caller untouched and
returns the number of bytes the descriptor would push, having run the
descriptor once against the no-op accumulating push. -/
theorem claim_C5_dry_run (st : WriterState) (d : List WCall) :
    (bert_write_sub st d).1.buf = st.buf ∧
    (bert_write_sub st d).2 = (descBytes d).length := by
  rw [bert_write_sub_eq]
  exact ⟨rfl, rfl⟩

/-- C6: every decode of the nil tag returns exactly the pre-existing nil
value supplied by the reader, with no constructor invocation, hence the
same value across all occurrences within and across decodes. -/
theorem claim_C6_nil_singleton (α : Type) (r : BertReader α) (fuel : Nat) (h : 0 < fuel) :
    ∀ rest, decodeT r fuel (NIL_EXT :: rest) = ([], some (r.nil, rest)) := by
  intro rest
  obtain ⟨f, rfl⟩ : ∃ f, fuel = f + 1 := ⟨fuel - 1, by omega⟩
  exact decodeT_nilTag r f rest

/-- C6 witness: decoding the nil tag with the trivial reader. -/
theorem claim_C6_witness :
    decodeT unitReader 1 (NIL_EXT :: []) = ([], some (unitReader.nil, [])) :=
  claim_C6_nil_singleton Unit unitReader 1 (by decide) []

/-- C7: constructor invocations are bottom-up: every argument passed to a
constructor is the shared nil value or the return of an earlier
invocation of the same decode. -/
theorem claim_C7_bottom_up (α : Type) (r : BertReader α) (fuel : Nat) (bs : Bytes)
    (h : ∀ b ∈ bs, b < 256) :
    bottomUp [r.nil] (decodeT r fuel bs).1 := by
  rcases hdec : decodeT r fuel bs with ⟨tr, res⟩
  simpa using ((decode_inv r fuel).1 bs tr res hdec h).2.1 [r.nil] (by simp)

/-- C7 witness: a 2-tuple of an integer and nil. -/
theorem claim_C7_witness :
    bottomUp [unitReader.nil] (decodeT unitReader 9 [104, 2, 97, 5, 106]).1 :=
  claim_C7_bottom_up Unit unitReader 9 [104, 2, 97, 5, 106] (by decide)

/-- C8: decoding a list decodes the tail term whatever its shape and
passes the decoded tail unchanged as the second argument of the list
constructor; when the tail input is the nil tag, that tail is the shared
nil value of the reader. -/
theorem claim_C8_list_tail (α : Type) (r : BertReader α) (fuel n : Nat)
    (bs rest2 rest3 : Bytes) (trN trT : List (Ev α)) (els : List α) (tl : α)
    (hn : n < 256 ^ 4)
    (h1 : decodeN r fuel n bs = (trN, some (els, rest2)))
    (h2 : decodeT r fuel rest2 = (trT, some (tl, rest3))) :
    decodeT r (fuel + 1) (LIST_EXT :: (beBytes n 4 ++ bs)) =
      (trN ++ [Ev.tuple n els (r.tuple n els)] ++ trT
         ++ [Ev.list (r.tuple n els) tl (r.list (r.tuple n els) tl)],
       some (r.list (r.tuple n els) tl, rest3)) ∧
    (∀ rest4, rest2 = NIL_EXT :: rest4 → 0 < fuel → tl = r.nil) := by
  constructor
  · rw [decodeT_listTag r fuel n bs hn]
    simp [h1, h2]
  · intro rest4 heq hf
    obtain ⟨f, rfl⟩ : ∃ f, fuel = f + 1 := ⟨fuel - 1, by omega⟩
    rw [heq, decodeT_nilTag] at h2
    injection h2 with h3 h4
    simp only [Option.some.injEq, Prod.mk.injEq] at h4
    exact h4.1.symm

/-- C8 witness: an improper list of one small integer with an atom tail. -/
theorem claim_C8_witness :
    decodeT unitReader 3 (LIST_EXT :: (beBytes 1 4 ++ [97, 5, 115, 1, 107])) =
      ([Ev.integer 5 (), Ev.tuple 1 [()] (), Ev.atom [107] (), Ev.list () () ()],
       some ((), [])) :=
  (claim_C8_list_tail Unit unitReader 2 1 [97, 5, 115, 1, 107] [115, 1, 107] []
    [Ev.integer 5 ()] [Ev.atom [107] ()] [()] () (by decide) rfl rfl).1

/-- C9: every value the decoder passes to the integer constructor of the
reader lies in the signed 32-bit range mandated by the int32_t parameter
of the header. -/
theorem claim_C9_int32 (α : Type) (r : BertReader α) (fuel : Nat) (bs : Bytes)
    (h : ∀ b ∈ bs, b < 256) :
    ∀ e ∈ (decodeT r fuel bs).1, e.intOk := by
  rcases hdec : decodeT r fuel bs with ⟨tr, res⟩
  simpa using ((decode_inv r fuel).1 bs tr res hdec h).1

/-- C9 witness: the 4-byte integer of maximal wire value decodes to the
in-range value -1 handed to the integer constructor. -/
theorem claim_C9_witness : Ev.intOk (Ev.integer (-1) ()) :=
  claim_C9_int32 Unit unitReader 5 [98, 255, 255, 255, 255] (by decide)
    (Ev.integer (-1) ()) (List.mem_cons_self _ _)

/-- C10: the decoder and the dry pass of the writer are deterministic:
equal inputs give equal constructor traces, equal results and equal
measured sizes. -/
theorem claim_C10_deterministic (α : Type) (r : BertReader α) (fuel : Nat)
    (bs1 bs2 : Bytes) (st : WriterState) (d1 d2 : List WCall)
    (hb : bs1 = bs2) (hd : d1 = d2) :
    decodeT r fuel bs1 = decodeT r fuel bs2 ∧
    bert_write_sub st d1 = bert_write_sub st d2 := by
  subst hb
  subst hd
  exact ⟨rfl, rfl⟩

/-- C10 witness: two runs on the nil input and the nil descriptor. -/
theorem claim_C10_witness :
    decodeT unitReader 1 [106] = decodeT unitReader 1 [106] ∧
    bert_write_sub { buf := [], size := 0 } [WCall.nil] =
      bert_write_sub { buf := [], size := 0 } [WCall.nil] :=
  claim_C10_deterministic Unit unitReader 1 [106] [106] { buf := [], size := 0 }
    [WCall.nil] [WCall.nil] rfl rfl

end BertSpec
